import Mathlib

/-!
Verification development for the pw_rpc call/endpoint/channel/packet subsystem
of the pigweed repository.

The repository snapshot carries the build declarations of the `pw_rpc` library
(`call.cc`, `channel.cc`, `endpoint.cc`, `packet.cc`, ... listed in the Bazel
build file) together with the `pw_containers` documentation, but not the C++
translation units themselves.  The definitions below are therefore a shallow
embedding modelled from the specification of the subsystem: the wire packet
codec, the endpoint state (call registry, channel registry, call-id allocator),
the call state machine with its operations (invoke, incoming packet processing,
user cancel, handler responses, stream completion, teardown), and the intrusive
list membership discipline documented for `pw::IntrusiveList`.

The file is organized with all definitions first and all theorems afterwards.
-/

namespace PwRpc

/-- Modelled from the spec: the eight wire packet types of §3 of the design
(`packet.h` / `internal/packet.proto` are not in the snapshot). -/
inductive PacketType
  | kRequest
  | kResponse
  | kClientStream
  | kClientStreamEnd
  | kClientError
  | kServerError
  | kServerStreamEnd
  | kCancel
deriving DecidableEq, Repr

/-- Modelled from the spec: the wire tag byte of each packet type; decoding an
unrecognized tag fails. -/
def PacketType.toByte : PacketType → Nat
  | .kRequest => 0
  | .kResponse => 1
  | .kClientStream => 2
  | .kClientStreamEnd => 3
  | .kClientError => 4
  | .kServerError => 5
  | .kServerStreamEnd => 6
  | .kCancel => 7

/-- Modelled from the spec: partial inverse of `PacketType.toByte`; an unknown
tag byte yields `none` (`MalformedPacket`). -/
def PacketType.ofByte : Nat → Option PacketType
  | 0 => some .kRequest
  | 1 => some .kResponse
  | 2 => some .kClientStream
  | 3 => some .kClientStreamEnd
  | 4 => some .kClientError
  | 5 => some .kServerError
  | 6 => some .kServerStreamEnd
  | 7 => some .kCancel
  | _ => none

/-- Little-endian base-128 varint encoding, fuel-recursive so that it reduces
in the kernel; `fuel` only needs to dominate the value being encoded. -/
def varintEncodeAux : Nat → Nat → List Nat
  | 0, n => [n]
  | fuel + 1, n => if n < 128 then [n] else (n % 128 + 128) :: varintEncodeAux fuel (n / 128)

/-- Modelled from the spec: integer fields are encoded self-describingly as
base-128 varints (the protobuf encoding used by `packet.cc`). -/
def varintEncode (n : Nat) : List Nat :=
  varintEncodeAux n n

/-- Decode one varint from the front of a byte list, returning the value and
the remaining bytes; fails on truncated input. -/
def varintDecode : List Nat → Option (Nat × List Nat)
  | [] => none
  | b :: rest =>
    if b < 128 then some (b, rest)
    else
      match varintDecode rest with
      | some (n, r) => some (n * 128 + (b - 128), r)
      | none => none

/-- Modelled from the spec: the configured maximum payload length that `decode`
enforces ("rejects ... payload exceeding a configured maximum length"). -/
def cfgMaxPayloadBytes : Nat := 4096

/-- Modelled from the spec: the immutable wire packet value of §3 — type,
channel id, 32-bit service and method hashes, call id, opaque payload bytes and
a status code. -/
structure Packet where
  type : PacketType
  channel_id : Nat
  service_id : Nat
  method_id : Nat
  call_id : Nat
  payload : List Nat
  status : Nat
deriving DecidableEq, Repr

/-- A packet is representable on the wire when its payload does not exceed the
configured maximum length. -/
def Packet.WellFormed (p : Packet) : Prop :=
  p.payload.length ≤ cfgMaxPayloadBytes

instance (p : Packet) : Decidable p.WellFormed := by
  unfold Packet.WellFormed
  infer_instance

/-- Modelled from the spec: deterministic total encoding of a packet — the tag
byte followed by the varint fields, the length-prefixed payload bytes and the
status. -/
def Packet.encode (p : Packet) : List Nat :=
  p.type.toByte ::
    (varintEncode p.channel_id ++ varintEncode p.service_id ++ varintEncode p.method_id ++
      varintEncode p.call_id ++ varintEncode p.payload.length ++ p.payload ++
      varintEncode p.status)

/-- Modelled from the spec: `decode(bytes) -> Result<Packet, MalformedPacket>`;
rejects an unknown packet type, truncated or inconsistent fields, and a payload
exceeding the configured maximum length. -/
def Packet.decode (bytes : List Nat) : Option Packet :=
  match bytes with
  | [] => none
  | tb :: r0 =>
    match PacketType.ofByte tb with
    | none => none
    | some t =>
      match varintDecode r0 with
      | none => none
      | some (channel_id, r1) =>
        match varintDecode r1 with
        | none => none
        | some (service_id, r2) =>
          match varintDecode r2 with
          | none => none
          | some (method_id, r3) =>
            match varintDecode r3 with
            | none => none
            | some (call_id, r4) =>
              match varintDecode r4 with
              | none => none
              | some (len, r5) =>
                if len ≤ cfgMaxPayloadBytes ∧ len ≤ r5.length then
                  match varintDecode (r5.drop len) with
                  | none => none
                  | some (status, r6) =>
                    if r6 = [] then
                      some ⟨t, channel_id, service_id, method_id, call_id, r5.take len, status⟩
                    else none
                else none

/-- Modelled from the spec: the three call lifecycle states of §4.3. -/
inductive CallState
  | kActive
  | kAwaitingCompletion
  | kClosed
deriving DecidableEq, Repr

/-- Modelled from the spec: the four RPC method types. -/
inductive CallType
  | kUnary
  | kClientStream
  | kServerStream
  | kBidirectional
deriving DecidableEq, Repr

/-- Modelled from the spec: the terminal outcome a call delivers through its
completion path — success with a status, an error status, explicit
cancellation, or an abnormal abort (teardown / duplicate preemption). -/
inductive Outcome
  | success (status : Nat)
  | error (status : Nat)
  | cancelled
  | aborted
deriving DecidableEq, Repr

/-- Modelled from the spec: the error kinds of §7 that the endpoint surfaces
synchronously. -/
inductive RpcError
  | ChannelNotFound
  | ResourceExhausted
deriving DecidableEq, Repr

instance {ε α : Type} [DecidableEq ε] [DecidableEq α] : DecidableEq (Except ε α) := fun a b =>
  match a, b with
  | Except.ok x, Except.ok y => decidable_of_iff (x = y) (by simp)
  | Except.error x, Except.error y => decidable_of_iff (x = y) (by simp)
  | Except.ok _, Except.error _ => isFalse (by simp)
  | Except.error _, Except.ok _ => isFalse (by simp)

/-- Modelled from the spec: the full key tuple identifying one call on an
endpoint. -/
structure CallKey where
  channel_id : Nat
  service_id : Nat
  method_id : Nat
  call_id : Nat
deriving DecidableEq, Repr

/-- The key tuple carried by a packet. -/
def Packet.key (p : Packet) : CallKey :=
  ⟨p.channel_id, p.service_id, p.method_id, p.call_id⟩

/-- Modelled from the spec: one registered call.  `instId` is a bookkeeping
generation number distinguishing distinct call objects that reuse the same key
tuple over time; it corresponds to the identity of the C++ `Call` object. -/
structure Call where
  key : CallKey
  call_type : CallType
  instId : Nat
  state : CallState
deriving DecidableEq, Repr

/-- Modelled from the spec: the endpoint state — the fixed-capacity call
registry, the channel registry, the monotonic call-id counter, plus two
bookkeeping traces used to state the claims: `completed` records the terminal
outcome delivered for each retired call object, and `sends` records the
packets emitted on behalf of a call object (most recent first). -/
structure Endpoint where
  capacity : Nat
  channels : List Nat
  calls : List Call
  nextCallId : Nat
  nextInst : Nat
  completed : List (Nat × Outcome)
  sends : List (Nat × PacketType)
deriving DecidableEq, Repr

/-- Call ids are 32-bit on the wire; the allocator counts modulo this space. -/
def kCallIdSpace : Nat := 4294967296

/-- Look up the active call with the given key, if any. -/
def Endpoint.findCall (ep : Endpoint) (k : CallKey) : Option Call :=
  ep.calls.find? fun c => decide (c.key = k)

/-- The call ids of the currently active calls. -/
def Endpoint.activeIds (ep : Endpoint) : List Nat :=
  ep.calls.map fun c => c.key.call_id

/-- The generation numbers of the currently active calls. -/
def Endpoint.activeInsts (ep : Endpoint) : List Nat :=
  ep.calls.map Call.instId

/-- Modelled from the spec: the call-id allocator — a monotonic counter with
wraparound that skips ids currently active.  `fuel` bounds the linear scan. -/
def searchFreeId (active : List Nat) : Nat → Nat → Option Nat
  | _, 0 => none
  | start, fuel + 1 =>
    if start % kCallIdSpace ∈ active then searchFreeId active (start + 1) fuel
    else some (start % kCallIdSpace)

/-- Modelled from the spec: transition the active call with key `k` into the
terminal state — it is atomically removed from the registry, its terminal
outcome is recorded, and optionally one final packet is emitted for it. -/
def Endpoint.closeWith (ep : Endpoint) (k : CallKey) (o : Outcome) (send : Option PacketType) :
    Endpoint :=
  match ep.findCall k with
  | none => ep
  | some c =>
    { ep with
      calls := ep.calls.filter fun c' => decide (c'.key ≠ k)
      completed := (c.instId, o) :: ep.completed
      sends :=
        match send with
        | none => ep.sends
        | some t => (c.instId, t) :: ep.sends }

/-- Modelled from the spec: register a fresh active call with key `k`,
consuming the next generation number; callers check capacity and key
freshness.  Optionally one packet is emitted for the new call. -/
def Endpoint.registerNew (ep : Endpoint) (k : CallKey) (t : CallType) (send : Option PacketType) :
    Endpoint :=
  { ep with
    calls := ⟨k, t, ep.nextInst, CallState.kActive⟩ :: ep.calls
    nextInst := ep.nextInst + 1
    sends :=
      match send with
      | none => ep.sends
      | some pt => (ep.nextInst, pt) :: ep.sends }

/-- Modelled from the spec: `invoke` fails with `ResourceExhausted` if the
registry is full, `ChannelNotFound` if the channel is unknown (checked in the
order the spec lists them), otherwise allocates a call id unique among the
endpoint's active calls, registers the call, and sends `kRequest`. -/
def Endpoint.invoke (ep : Endpoint) (channel_id service_id method_id : Nat) (t : CallType) :
    Except RpcError (Endpoint × Nat) :=
  if ep.capacity ≤ ep.calls.length then Except.error RpcError.ResourceExhausted
  else if channel_id ∈ ep.channels then
    match searchFreeId ep.activeIds ep.nextCallId (ep.calls.length + 1) with
    | none => Except.error RpcError.ResourceExhausted
    | some cid =>
      Except.ok
        ({ ep.registerNew ⟨channel_id, service_id, method_id, cid⟩ t (some PacketType.kRequest) with
            nextCallId := (cid + 1) % kCallIdSpace }, cid)
  else Except.error RpcError.ChannelNotFound

/-- Modelled from the spec: a server receiving `kRequest` for a key that is
already active treats it as a restart — the prior call is abnormally closed
(`Cancelled`) and a new one created; for an idle key a new call is registered
unless the registry is full (in which case the request is refused and the
registry is left untouched).  Method dispatch is an external collaborator, so
the created call's method type is not modelled. -/
def Endpoint.handleRequest (ep : Endpoint) (p : Packet) : Endpoint :=
  match ep.findCall p.key with
  | some _ =>
    if (ep.closeWith p.key Outcome.cancelled none).capacity ≤
        (ep.closeWith p.key Outcome.cancelled none).calls.length then
      ep.closeWith p.key Outcome.cancelled none
    else (ep.closeWith p.key Outcome.cancelled none).registerNew p.key CallType.kUnary none
  | none =>
    if ep.capacity ≤ ep.calls.length then ep
    else ep.registerNew p.key CallType.kUnary none

/-- Modelled from the spec: the client routes a `kResponse` to the matching
registered call — terminal for unary/client-streaming calls, a stream fragment
for server-streaming/bidirectional calls; a response with no matching call is
dropped. -/
def Endpoint.handleResponse (ep : Endpoint) (p : Packet) : Endpoint :=
  match ep.findCall p.key with
  | none => ep
  | some c =>
    match c.call_type with
    | CallType.kUnary => ep.closeWith p.key (Outcome.success p.status) none
    | CallType.kClientStream => ep.closeWith p.key (Outcome.success p.status) none
    | CallType.kServerStream => ep
    | CallType.kBidirectional => ep

/-- Modelled from the spec: `kServerStreamEnd` carries the final status of a
streaming response and closes the matching streaming call. -/
def Endpoint.handleServerStreamEnd (ep : Endpoint) (p : Packet) : Endpoint :=
  match ep.findCall p.key with
  | none => ep
  | some c =>
    match c.call_type with
    | CallType.kServerStream => ep.closeWith p.key (Outcome.success p.status) none
    | CallType.kBidirectional => ep.closeWith p.key (Outcome.success p.status) none
    | CallType.kUnary => ep
    | CallType.kClientStream => ep

/-- Modelled from the spec: `kServerError` closes the matching call with the
error status delivered to the caller. -/
def Endpoint.handleServerError (ep : Endpoint) (p : Packet) : Endpoint :=
  ep.closeWith p.key (Outcome.error p.status) none

/-- Modelled from the spec: an incoming `kCancel` closes the matching call
(`Cancelled`), accepting no further packets for this key; no response is
sent. -/
def Endpoint.handleCancel (ep : Endpoint) (p : Packet) : Endpoint :=
  ep.closeWith p.key Outcome.cancelled none

/-- Modelled from the spec: `process_incoming_packet` — decode the bytes; on
decode failure discard silently; on success route by packet type.  Client
stream fragments are delivered to the handler and do not change the
registry. -/
def Endpoint.processPacket (ep : Endpoint) (bytes : List Nat) : Endpoint :=
  match Packet.decode bytes with
  | none => ep
  | some p =>
    match p.type with
    | PacketType.kRequest => ep.handleRequest p
    | PacketType.kResponse => ep.handleResponse p
    | PacketType.kClientStream => ep
    | PacketType.kClientStreamEnd => ep
    | PacketType.kClientError => ep.closeWith p.key Outcome.aborted none
    | PacketType.kServerError => ep.handleServerError p
    | PacketType.kServerStreamEnd => ep.handleServerStreamEnd p
    | PacketType.kCancel => ep.handleCancel p

/-- Modelled from the spec: user-initiated cancel — the client sends `kCancel`
and transitions locally to the terminal state immediately, without waiting for
any server acknowledgement. -/
def Endpoint.cancel (ep : Endpoint) (k : CallKey) : Endpoint :=
  ep.closeWith k Outcome.cancelled (some PacketType.kCancel)

/-- Modelled from the spec: the handler produces a final response for the call
with key `k` — the core emits `kResponse` with the terminal status and then
deregisters the call. -/
def Endpoint.respond (ep : Endpoint) (k : CallKey) (status : Nat) : Endpoint :=
  ep.closeWith k (Outcome.success status) (some PacketType.kResponse)

/-- Modelled from the spec: the handler emits one server-stream response
fragment for the active call with key `k`; the call stays active. -/
def Endpoint.sendStreamFragment (ep : Endpoint) (k : CallKey) : Endpoint :=
  match ep.findCall k with
  | none => ep
  | some c => { ep with sends := (c.instId, PacketType.kResponse) :: ep.sends }

/-- Modelled from the spec: the client signals end-of-stream — the call moves
to `kAwaitingCompletion` (still registered, non-terminal) and
`kClientStreamEnd` is sent. -/
def Endpoint.finishClientStream (ep : Endpoint) (k : CallKey) : Endpoint :=
  match ep.findCall k with
  | none => ep
  | some c =>
    { ep with
      calls := ep.calls.map fun c' =>
        if c'.key = k then { c' with state := CallState.kAwaitingCompletion } else c'
      sends := (c.instId, PacketType.kClientStreamEnd) :: ep.sends }

/-- Modelled from the spec: endpoint teardown force-closes every active call,
invoking each one's abnormal-completion path with `Aborted`, and clears the
registry. -/
def Endpoint.teardown (ep : Endpoint) : Endpoint :=
  { ep with
    calls := []
    completed := (ep.calls.map fun c => (c.instId, Outcome.aborted)) ++ ep.completed }

/-- The operations that drive an endpoint. -/
inductive Op
  | invoke (channel_id service_id method_id : Nat) (t : CallType)
  | incoming (bytes : List Nat)
  | cancel (k : CallKey)
  | respond (k : CallKey) (status : Nat)
  | streamFragment (k : CallKey)
  | finishStream (k : CallKey)
  | teardown

/-- Apply one operation; a synchronously failing `invoke` leaves the endpoint
unchanged. -/
def Endpoint.applyOp (ep : Endpoint) : Op → Endpoint
  | Op.invoke ch s m t =>
    match ep.invoke ch s m t with
    | Except.ok (ep', _) => ep'
    | Except.error _ => ep
  | Op.incoming bytes => ep.processPacket bytes
  | Op.cancel k => ep.cancel k
  | Op.respond k st => ep.respond k st
  | Op.streamFragment k => ep.sendStreamFragment k
  | Op.finishStream k => ep.finishClientStream k
  | Op.teardown => ep.teardown

/-- A fresh endpoint: an empty registry with the given capacity and the given
registered channels. -/
def Endpoint.init (capacity : Nat) (channels : List Nat) : Endpoint :=
  ⟨capacity, channels, [], 0, 0, [], []⟩

/-- Run a sequence of operations. -/
def Endpoint.run (ep : Endpoint) (ops : List Op) : Endpoint :=
  ops.foldl Endpoint.applyOp ep

/-- An endpoint state is reachable when some operation sequence produces it
from a fresh endpoint. -/
def Endpoint.Reachable (ep : Endpoint) : Prop :=
  ∃ capacity channels ops, ep = Endpoint.run (Endpoint.init capacity channels) ops

/-- The registry invariants maintained by every operation. -/
structure Endpoint.Inv (ep : Endpoint) : Prop where
  hlen : ep.calls.length ≤ ep.capacity
  hkeys : ep.calls.Pairwise fun a b => a.key ≠ b.key
  hstate : ∀ c ∈ ep.calls, c.state ≠ CallState.kClosed
  hinstA : ∀ c ∈ ep.calls, c.instId < ep.nextInst
  hinstC : ∀ x ∈ ep.completed, x.1 < ep.nextInst
  hdisj : ∀ c ∈ ep.calls, ∀ x ∈ ep.completed, c.instId ≠ x.1
  hinsts : ep.calls.Pairwise fun a b => a.instId ≠ b.instId
  hcomp : ep.completed.Pairwise fun a b => a.1 ≠ b.1
  htotal : ∀ i < ep.nextInst, i ∈ ep.activeInsts ∨ i ∈ ep.completed.map Prod.fst

end PwRpc

namespace PwContainers

/-- Modelled from the spec: the observable state of a family of
`pw::IntrusiveList`s — each list is identified by an id and holds its items
(front to back).  Items are identified by ids; a linked-list item embeds its
single "next" pointer, so it can be in at most one list. -/
structure IntrusiveState where
  lists : List (Nat × List Nat)
deriving DecidableEq, Repr

/-- Whether item `x` is currently a member of any list. -/
def IntrusiveState.itemInAnyList (s : IntrusiveState) (x : Nat) : Prop :=
  ∃ l ∈ s.lists, x ∈ l.2

instance (s : IntrusiveState) (x : Nat) : Decidable (s.itemInAnyList x) := by
  unfold IntrusiveState.itemInAnyList
  infer_instance

/-- Total number of occurrences of item `x` across all lists. -/
def IntrusiveState.occurrences (s : IntrusiveState) (x : Nat) : Nat :=
  (s.lists.map fun l => l.2.count x).sum

/-- Create a new empty list with the given id (a no-op if the id exists). -/
def IntrusiveState.newList (s : IntrusiveState) (lid : Nat) : IntrusiveState :=
  if lid ∈ s.lists.map Prod.fst then s else ⟨(lid, []) :: s.lists⟩

/-- Modelled from the spec: `push_back` appends an item to a list; an item that
is already in a list (the same or a different one) CANNOT be added — attempting
to do so results in an assert failure, here `none`. -/
def IntrusiveState.push_back (s : IntrusiveState) (lid x : Nat) : Option IntrusiveState :=
  if s.itemInAnyList x then none
  else some ⟨s.lists.map fun l => if l.1 = lid then (l.1, l.2 ++ [x]) else l⟩

/-- Modelled from the spec: `remove` unlinks an item from the given list. -/
def IntrusiveState.remove (s : IntrusiveState) (lid x : Nat) : IntrusiveState :=
  ⟨s.lists.map fun l => if l.1 = lid then (l.1, l.2.erase x) else l⟩

/-- Modelled from the spec: when an item is destroyed while still an element of
a list, its destructor unlinks it from that list ("when different_scope goes
out of scope, it removes itself from the list"). -/
def IntrusiveState.destroyItem (s : IntrusiveState) (x : Nat) : IntrusiveState :=
  ⟨s.lists.map fun l => (l.1, l.2.erase x)⟩

/-- The operations that drive a family of intrusive lists. -/
inductive ListOp
  | newList (lid : Nat)
  | pushBack (lid x : Nat)
  | remove (lid x : Nat)
  | destroyItem (x : Nat)

/-- Apply one operation; a `push_back` that would assert leaves the state
unchanged (the program would have halted). -/
def IntrusiveState.applyOp (s : IntrusiveState) : ListOp → IntrusiveState
  | ListOp.newList lid => s.newList lid
  | ListOp.pushBack lid x =>
    match s.push_back lid x with
    | some s' => s'
    | none => s
  | ListOp.remove lid x => s.remove lid x
  | ListOp.destroyItem x => s.destroyItem x

/-- Run a sequence of list operations from the empty state. -/
def IntrusiveState.run (s : IntrusiveState) (ops : List ListOp) : IntrusiveState :=
  ops.foldl IntrusiveState.applyOp s

/-- A state is reachable when some operation sequence produces it from the
empty state (no lists, no items). -/
def IntrusiveState.Reachable (s : IntrusiveState) : Prop :=
  ∃ ops, s = IntrusiveState.run ⟨[]⟩ ops

/-- The invariants maintained by every list operation: list ids are distinct
and every item occurs at most once across all lists. -/
structure IntrusiveState.Inv (s : IntrusiveState) : Prop where
  hids : s.lists.Pairwise fun a b => a.1 ≠ b.1
  honce : ∀ x, s.occurrences x ≤ 1

end PwContainers

namespace PwRpc

theorem PacketType.ofByte_toByte (t : PacketType) : PacketType.ofByte t.toByte = some t := by
  cases t <;> rfl

theorem varintDecode_varintEncodeAux (fuel : Nat) :
    ∀ n rest, n ≤ fuel → varintDecode (varintEncodeAux fuel n ++ rest) = some (n, rest) := by
  induction fuel with
  | zero =>
    intro n rest h
    have hn : n = 0 := Nat.le_zero.mp h
    subst hn
    rfl
  | succ fuel ih =>
    intro n rest h
    by_cases hn : n < 128
    · simp [varintEncodeAux, hn, varintDecode]
    · have hrec : varintDecode (varintEncodeAux fuel (n / 128) ++ rest) = some (n / 128, rest) :=
        ih (n / 128) rest (by omega)
      simp only [varintEncodeAux, if_neg hn, List.cons_append, varintDecode]
      rw [if_neg (by omega), hrec]
      show some (n / 128 * 128 + (n % 128 + 128 - 128), rest) = some (n, rest)
      have hval : n / 128 * 128 + (n % 128 + 128 - 128) = n := by omega
      rw [hval]

theorem varintDecode_varintEncode (n : Nat) (rest : List Nat) :
    varintDecode (varintEncode n ++ rest) = some (n, rest) :=
  varintDecode_varintEncodeAux n n rest (Nat.le_refl n)

theorem varintDecode_varintEncode_nil (n : Nat) : varintDecode (varintEncode n) = some (n, []) := by
  have h := varintDecode_varintEncode n []
  simpa using h

/-- Claim C1: for every representable packet value `p`, decoding the byte
sequence produced by encoding `p` yields exactly `p`, field for field. -/
theorem packet_decode_encode_roundtrip (p : Packet) (h : p.WellFormed) :
    Packet.decode (Packet.encode p) = some p := by
  obtain ⟨t, ch, s, m, cid, pl, st⟩ := p
  have hlen : pl.length ≤ cfgMaxPayloadBytes := h
  simp only [Packet.encode, Packet.decode, List.append_assoc, PacketType.ofByte_toByte,
    varintDecode_varintEncode]
  rw [if_pos ⟨hlen, by simp⟩]
  rw [List.drop_left, List.take_left]
  simp [varintDecode_varintEncode_nil]

/-- Witness for claim C1 at a concrete packet. -/
theorem packet_decode_encode_roundtrip_witness :
    (Packet.mk .kRequest 1 7 3 9 [1, 2] 0).WellFormed ∧
      Packet.decode (Packet.encode (Packet.mk .kRequest 1 7 3 9 [1, 2] 0)) =
        some (Packet.mk .kRequest 1 7 3 9 [1, 2] 0) :=
  ⟨by decide, packet_decode_encode_roundtrip (Packet.mk .kRequest 1 7 3 9 [1, 2] 0) (by decide)⟩

theorem Endpoint.findCall_mem {ep : Endpoint} {k : CallKey} {c : Call}
    (h : ep.findCall k = some c) : c ∈ ep.calls :=
  List.mem_of_find?_eq_some h

theorem Endpoint.findCall_key {ep : Endpoint} {k : CallKey} {c : Call}
    (h : ep.findCall k = some c) : c.key = k := by
  have hp := List.find?_some h
  simpa using hp

theorem Endpoint.findCall_none_key {ep : Endpoint} {k : CallKey}
    (h : ep.findCall k = none) : ∀ c ∈ ep.calls, c.key ≠ k := by
  intro c hc
  have hp := List.find?_eq_none.mp h c hc
  simpa using hp

theorem mem_filterKey {calls : List Call} {k : CallKey} {c : Call} :
    (c ∈ calls.filter fun c' => decide (c'.key ≠ k)) ↔ c ∈ calls ∧ c.key ≠ k := by
  simp [List.mem_filter]

theorem instId_ne_of_mem_of_ne {calls : List Call}
    (hp : calls.Pairwise fun a b => a.instId ≠ b.instId) {a b : Call}
    (ha : a ∈ calls) (hb : b ∈ calls) (hne : a ≠ b) : a.instId ≠ b.instId := by
  have hsymm : Symmetric fun a b : Call => a.instId ≠ b.instId :=
    fun _ _ hab => fun e => hab e.symm
  exact hp.forall hsymm ha hb hne

theorem key_eq_call_eq {calls : List Call}
    (hp : calls.Pairwise fun a b => a.key ≠ b.key) {a b : Call}
    (ha : a ∈ calls) (hb : b ∈ calls) (hkey : a.key = b.key) : a = b := by
  by_contra hne
  have hsymm : Symmetric fun a b : Call => a.key ≠ b.key :=
    fun _ _ hab => fun e => hab e.symm
  exact hp.forall hsymm ha hb hne hkey

theorem Endpoint.Inv.set_nextCallId {ep : Endpoint} (h : ep.Inv) (x : Nat) :
    Endpoint.Inv { ep with nextCallId := x } :=
  ⟨h.hlen, h.hkeys, h.hstate, h.hinstA, h.hinstC, h.hdisj, h.hinsts, h.hcomp, h.htotal⟩

theorem Endpoint.Inv.set_sends {ep : Endpoint} (h : ep.Inv) (x : List (Nat × PacketType)) :
    Endpoint.Inv { ep with sends := x } :=
  ⟨h.hlen, h.hkeys, h.hstate, h.hinstA, h.hinstC, h.hdisj, h.hinsts, h.hcomp, h.htotal⟩

theorem Endpoint.Inv.closeWith_preserved {ep : Endpoint} (h : ep.Inv) (k : CallKey) (o : Outcome)
    (send : Option PacketType) : (ep.closeWith k o send).Inv := by
  unfold Endpoint.closeWith
  cases hf : ep.findCall k with
  | none => exact h
  | some c =>
    have hck : c.key = k := Endpoint.findCall_key hf
    have hcm : c ∈ ep.calls := Endpoint.findCall_mem hf
    refine ⟨?_, ?_, ?_, ?_, ?_, ?_, ?_, ?_, ?_⟩
    · exact le_trans (List.length_filter_le _ _) h.hlen
    · exact List.Pairwise.sublist (List.filter_sublist _) h.hkeys
    · intro c' hc'
      exact h.hstate c' (mem_filterKey.mp hc').1
    · intro c' hc'
      exact h.hinstA c' (mem_filterKey.mp hc').1
    · intro x hx
      rcases List.mem_cons.mp hx with hx | hx
      · subst hx
        exact h.hinstA c hcm
      · exact h.hinstC x hx
    · intro c' hc' x hx
      obtain ⟨hc'm, hc'k⟩ := mem_filterKey.mp hc'
      rcases List.mem_cons.mp hx with hx | hx
      · subst hx
        have hne : c' ≠ c := fun e => hc'k (e ▸ hck)
        exact instId_ne_of_mem_of_ne h.hinsts hc'm hcm hne
      · exact h.hdisj c' hc'm x hx
    · exact List.Pairwise.sublist (List.filter_sublist _) h.hinsts
    · refine List.pairwise_cons.mpr ⟨?_, h.hcomp⟩
      intro x hx
      exact h.hdisj c hcm x hx
    · intro i hi
      rcases h.htotal i hi with hact | hdone
      · simp only [Endpoint.activeInsts, List.mem_map] at hact
        obtain ⟨c'', hc''m, hc''i⟩ := hact
        by_cases hkk : c''.key = k
        · have : c'' = c := key_eq_call_eq h.hkeys hc''m hcm (hkk.trans hck.symm)
          subst this
          right
          simp [hc''i.symm]
        · left
          simp only [Endpoint.activeInsts, List.mem_map]
          exact ⟨c'', mem_filterKey.mpr ⟨hc''m, hkk⟩, hc''i⟩
      · right
        simp only [List.map_cons, List.mem_cons]
        exact Or.inr (by simpa using hdone)

theorem Endpoint.Inv.registerNew_preserved {ep : Endpoint} (h : ep.Inv) {k : CallKey} (t : CallType)
    (send : Option PacketType) (hcap : ep.calls.length < ep.capacity)
    (hfresh : ∀ c ∈ ep.calls, c.key ≠ k) : (ep.registerNew k t send).Inv := by
  refine ⟨?_, ?_, ?_, ?_, ?_, ?_, ?_, ?_, ?_⟩
  · simpa [Endpoint.registerNew] using hcap
  · refine List.pairwise_cons.mpr ⟨?_, h.hkeys⟩
    intro c hc
    exact fun e => hfresh c hc (e.symm)
  · intro c hc
    rcases List.mem_cons.mp hc with hc | hc
    · subst hc
      simp
    · exact h.hstate c hc
  · intro c hc
    rcases List.mem_cons.mp hc with hc | hc
    · subst hc
      simp [Endpoint.registerNew]
    · exact Nat.lt_trans (h.hinstA c hc) (Nat.lt_succ_self _)
  · intro x hx
    exact Nat.lt_trans (h.hinstC x hx) (Nat.lt_succ_self _)
  · intro c hc x hx
    rcases List.mem_cons.mp hc with hc | hc
    · subst hc
      exact fun e => Nat.lt_irrefl _ (e ▸ h.hinstC x hx)
    · exact h.hdisj c hc x hx
  · refine List.pairwise_cons.mpr ⟨?_, h.hinsts⟩
    intro c hc
    exact fun e => Nat.lt_irrefl _ (e ▸ h.hinstA c hc)
  · exact h.hcomp
  · intro i hi
    simp only [Endpoint.registerNew] at hi ⊢
    rcases Nat.lt_succ_iff_lt_or_eq.mp hi with hi | hi
    · rcases h.htotal i hi with hact | hdone
      · left
        simp only [Endpoint.activeInsts, List.map_cons, List.mem_cons]
        right
        simpa [Endpoint.activeInsts] using hact
      · right
        exact hdone
    · left
      subst hi
      simp [Endpoint.activeInsts]

theorem Endpoint.Inv.finishClientStream {ep : Endpoint} (h : ep.Inv) (k : CallKey) :
    (ep.finishClientStream k).Inv := by
  unfold Endpoint.finishClientStream
  cases hf : ep.findCall k with
  | none => exact h
  | some c =>
    have hgkey : ∀ c' : Call,
        (if c'.key = k then { c' with state := CallState.kAwaitingCompletion } else c').key
          = c'.key := by
      intro c'
      by_cases hk : c'.key = k <;> simp [hk]
    have hginst : ∀ c' : Call,
        (if c'.key = k then { c' with state := CallState.kAwaitingCompletion } else c').instId
          = c'.instId := by
      intro c'
      by_cases hk : c'.key = k <;> simp [hk]
    refine ⟨?_, ?_, ?_, ?_, ?_, ?_, ?_, ?_, ?_⟩
    · simpa using h.hlen
    · refine List.pairwise_map.mpr (h.hkeys.imp ?_)
      intro a b hab
      rw [hgkey a, hgkey b]
      exact hab
    · intro c' hc'
      simp only [List.mem_map] at hc'
      obtain ⟨a, ham, ha⟩ := hc'
      subst ha
      by_cases hk : a.key = k
      · simp [hk]
      · simpa [hk] using h.hstate a ham
    · intro c' hc'
      simp only [List.mem_map] at hc'
      obtain ⟨a, ham, ha⟩ := hc'
      subst ha
      rw [hginst a]
      exact h.hinstA a ham
    · exact h.hinstC
    · intro c' hc' x hx
      simp only [List.mem_map] at hc'
      obtain ⟨a, ham, ha⟩ := hc'
      subst ha
      rw [hginst a]
      exact h.hdisj a ham x hx
    · refine List.pairwise_map.mpr (h.hinsts.imp ?_)
      intro a b hab
      rw [hginst a, hginst b]
      exact hab
    · exact h.hcomp
    · intro i hi
      rcases h.htotal i hi with hact | hdone
      · left
        simp only [Endpoint.activeInsts, List.map_map]
        have hcongr :
            (Call.instId ∘ fun c' : Call =>
                if c'.key = k then { c' with state := CallState.kAwaitingCompletion } else c')
              = Call.instId := by
          funext c'
          exact hginst c'
        rw [hcongr]
        simpa [Endpoint.activeInsts] using hact
      · right
        exact hdone

theorem Endpoint.Inv.teardown {ep : Endpoint} (h : ep.Inv) : ep.teardown.Inv := by
  refine ⟨?_, ?_, ?_, ?_, ?_, ?_, ?_, ?_, ?_⟩
  · simp [Endpoint.teardown]
  · simp [Endpoint.teardown]
  · simp [Endpoint.teardown]
  · simp [Endpoint.teardown]
  · intro x hx
    simp only [Endpoint.teardown, List.mem_append, List.mem_map] at hx
    rcases hx with ⟨c, hc, hcx⟩ | hx
    · subst hcx
      exact h.hinstA c hc
    · exact h.hinstC x hx
  · simp [Endpoint.teardown]
  · simp [Endpoint.teardown]
  · refine List.pairwise_append.mpr ⟨?_, h.hcomp, ?_⟩
    · refine List.pairwise_map.mpr (h.hinsts.imp ?_)
      intro a b hab
      exact hab
    · intro a ha b hb
      simp only [List.mem_map] at ha
      obtain ⟨c, hc, hca⟩ := ha
      subst hca
      exact h.hdisj c hc b hb
  · intro i hi
    simp only [Endpoint.teardown] at hi
    rcases h.htotal i hi with hact | hdone
    · right
      simp only [Endpoint.teardown, List.map_append, List.map_map, List.mem_append]
      left
      have hcongr : (Prod.fst ∘ fun c : Call => (c.instId, Outcome.aborted)) = Call.instId := by
        funext c
        rfl
      rw [hcongr]
      simpa [Endpoint.activeInsts] using hact
    · right
      simp only [Endpoint.teardown, List.map_append, List.mem_append]
      right
      exact hdone

theorem searchFreeId_not_mem (active : List Nat) :
    ∀ fuel start cid, searchFreeId active start fuel = some cid → cid ∉ active := by
  intro fuel
  induction fuel with
  | zero =>
    intro start cid hs
    simp [searchFreeId] at hs
  | succ fuel ih =>
    intro start cid hs
    by_cases hm : start % kCallIdSpace ∈ active
    · rw [searchFreeId, if_pos hm] at hs
      exact ih (start + 1) cid hs
    · rw [searchFreeId, if_neg hm] at hs
      have hcid : cid = start % kCallIdSpace := (Option.some.injEq _ _).mp hs.symm
      rw [hcid]
      exact hm

theorem Endpoint.invoke_ok {ep : Endpoint} {ch s m : Nat} {t : CallType} {ep' : Endpoint}
    {cid : Nat} (hres : ep.invoke ch s m t = Except.ok (ep', cid)) :
    ep.calls.length < ep.capacity ∧ ch ∈ ep.channels ∧ cid ∉ ep.activeIds ∧
      ep' = { ep.registerNew ⟨ch, s, m, cid⟩ t (some PacketType.kRequest) with
                nextCallId := (cid + 1) % kCallIdSpace } := by
  unfold Endpoint.invoke at hres
  by_cases h1 : ep.capacity ≤ ep.calls.length
  · rw [if_pos h1] at hres
    exact absurd hres (by simp)
  · rw [if_neg h1] at hres
    by_cases h2 : ch ∈ ep.channels
    · rw [if_pos h2] at hres
      cases hs : searchFreeId ep.activeIds ep.nextCallId (ep.calls.length + 1) with
      | none =>
        rw [hs] at hres
        exact absurd hres (by simp)
      | some cid' =>
        rw [hs] at hres
        simp only [Except.ok.injEq, Prod.mk.injEq] at hres
        obtain ⟨hep', hcid⟩ := hres
        subst hcid
        exact ⟨Nat.lt_of_not_le h1, h2, searchFreeId_not_mem _ _ _ _ hs, hep'.symm⟩
    · rw [if_neg h2] at hres
      exact absurd hres (by simp)

theorem Endpoint.Inv.invoke_fresh_key {ep : Endpoint} {cid : Nat}
    (hfree : cid ∉ ep.activeIds) (ch s m : Nat) :
    ∀ c ∈ ep.calls, c.key ≠ (⟨ch, s, m, cid⟩ : CallKey) := by
  intro c hc he
  apply hfree
  simp only [Endpoint.activeIds, List.mem_map]
  exact ⟨c, hc, by rw [he]⟩

theorem Endpoint.Inv.handleRequest {ep : Endpoint} (h : ep.Inv) (p : Packet) :
    (ep.handleRequest p).Inv := by
  unfold Endpoint.handleRequest
  cases hf : ep.findCall p.key with
  | some c =>
    have hclosed := h.closeWith_preserved p.key Outcome.cancelled none
    by_cases hc2 :
        (ep.closeWith p.key Outcome.cancelled none).capacity ≤
          (ep.closeWith p.key Outcome.cancelled none).calls.length
    · rw [if_pos hc2]
      exact hclosed
    · rw [if_neg hc2]
      refine hclosed.registerNew_preserved _ _ (Nat.lt_of_not_le hc2) ?_
      intro c' hc'
      have hc'm : c' ∈ (ep.closeWith p.key Outcome.cancelled none).calls := hc'
      rw [Endpoint.closeWith, hf] at hc'm
      exact (mem_filterKey.mp hc'm).2
  | none =>
    by_cases hc2 : ep.capacity ≤ ep.calls.length
    · rw [if_pos hc2]
      exact h
    · rw [if_neg hc2]
      exact h.registerNew_preserved _ _ (Nat.lt_of_not_le hc2) (Endpoint.findCall_none_key hf)

theorem Endpoint.Inv.handleResponse {ep : Endpoint} (h : ep.Inv) (p : Packet) :
    (ep.handleResponse p).Inv := by
  cases hf : ep.findCall p.key with
  | none =>
    simp only [Endpoint.handleResponse, hf]
    exact h
  | some c =>
    simp only [Endpoint.handleResponse, hf]
    cases c.call_type
    · exact h.closeWith_preserved _ _ _
    · exact h.closeWith_preserved _ _ _
    · exact h
    · exact h

theorem Endpoint.Inv.handleServerStreamEnd {ep : Endpoint} (h : ep.Inv) (p : Packet) :
    (ep.handleServerStreamEnd p).Inv := by
  cases hf : ep.findCall p.key with
  | none =>
    simp only [Endpoint.handleServerStreamEnd, hf]
    exact h
  | some c =>
    simp only [Endpoint.handleServerStreamEnd, hf]
    cases c.call_type
    · exact h
    · exact h
    · exact h.closeWith_preserved _ _ _
    · exact h.closeWith_preserved _ _ _

theorem Endpoint.Inv.processPacket {ep : Endpoint} (h : ep.Inv) (bytes : List Nat) :
    (ep.processPacket bytes).Inv := by
  cases hd : Packet.decode bytes with
  | none =>
    simp only [Endpoint.processPacket, hd]
    exact h
  | some p =>
    simp only [Endpoint.processPacket, hd]
    cases p.type
    · exact h.handleRequest p
    · exact h.handleResponse p
    · exact h
    · exact h
    · exact h.closeWith_preserved _ _ _
    · exact h.closeWith_preserved _ _ _
    · exact h.handleServerStreamEnd p
    · exact h.closeWith_preserved _ _ _

theorem Endpoint.Inv.applyOp_preserved {ep : Endpoint} (h : ep.Inv) (op : Op) : (ep.applyOp op).Inv := by
  cases op with
  | invoke ch s m t =>
    simp only [Endpoint.applyOp]
    cases hres : ep.invoke ch s m t with
    | error e => exact h
    | ok r =>
      obtain ⟨ep', cid⟩ := r
      obtain ⟨hlt, _, hfree, hep'⟩ := Endpoint.invoke_ok hres
      show ep'.Inv
      rw [hep']
      exact (h.registerNew_preserved t (some PacketType.kRequest) hlt
        (Endpoint.Inv.invoke_fresh_key hfree ch s m)).set_nextCallId _
  | incoming bytes =>
    simp only [Endpoint.applyOp]
    exact h.processPacket bytes
  | cancel k =>
    simp only [Endpoint.applyOp, Endpoint.cancel]
    exact h.closeWith_preserved _ _ _
  | respond k st =>
    simp only [Endpoint.applyOp, Endpoint.respond]
    exact h.closeWith_preserved _ _ _
  | streamFragment k =>
    simp only [Endpoint.applyOp]
    unfold Endpoint.sendStreamFragment
    cases hf : ep.findCall k with
    | none => exact h
    | some c => exact h.set_sends _
  | finishStream k => exact h.finishClientStream k
  | teardown => exact h.teardown

theorem Endpoint.Inv.run_preserved {ep : Endpoint} (h : ep.Inv) (ops : List Op) :
    (Endpoint.run ep ops).Inv := by
  induction ops generalizing ep with
  | nil => exact h
  | cons op ops ih => exact ih (h.applyOp_preserved op)

theorem Endpoint.init_inv (capacity : Nat) (channels : List Nat) :
    (Endpoint.init capacity channels).Inv := by
  refine ⟨?_, ?_, ?_, ?_, ?_, ?_, ?_, ?_, ?_⟩ <;>
    simp [Endpoint.init, Endpoint.activeInsts]

theorem Endpoint.Reachable.reachable_inv {ep : Endpoint} (h : ep.Reachable) : ep.Inv := by
  obtain ⟨capacity, channels, ops, rfl⟩ := h
  exact (Endpoint.init_inv capacity channels).run_preserved ops

/-- Claim C2: in every reachable endpoint state the call registry never holds
two active calls with the same full key tuple (channel_id, service_id,
method_id, call_id), and a successful `invoke` always allocates a call id that
is not the call id of any currently active call on the endpoint. -/
theorem registry_active_keys_unique (ep : Endpoint) (h : ep.Reachable) :
    (ep.calls.Pairwise fun a b => a.key ≠ b.key) ∧
      ∀ ch s m t ep' cid, ep.invoke ch s m t = Except.ok (ep', cid) → cid ∉ ep.activeIds := by
  refine ⟨h.reachable_inv.hkeys, ?_⟩
  intro ch s m t ep' cid hres
  exact (Endpoint.invoke_ok hres).2.2.1

/-- Witness for claim C2 at a concrete reachable endpoint. -/
theorem registry_active_keys_unique_witness :
    (Endpoint.run (Endpoint.init 2 [1]) [Op.invoke 1 7 3 CallType.kUnary]).Reachable ∧
      ((Endpoint.run (Endpoint.init 2 [1]) [Op.invoke 1 7 3 CallType.kUnary]).calls.Pairwise
          fun a b => a.key ≠ b.key) ∧
        ∀ ch s m t ep' cid,
          (Endpoint.run (Endpoint.init 2 [1]) [Op.invoke 1 7 3 CallType.kUnary]).invoke ch s m t =
              Except.ok (ep', cid) →
            cid ∉ (Endpoint.run (Endpoint.init 2 [1]) [Op.invoke 1 7 3 CallType.kUnary]).activeIds :=
  ⟨⟨2, [1], [Op.invoke 1 7 3 CallType.kUnary], rfl⟩,
    registry_active_keys_unique _ ⟨2, [1], [Op.invoke 1 7 3 CallType.kUnary], rfl⟩⟩

/-- Claim C6: in every reachable endpoint state a call is registered only while
non-terminal — no registered call is in the terminal state, and no call object
that has delivered its terminal outcome is still registered. -/
theorem registry_holds_only_nonterminal (ep : Endpoint) (h : ep.Reachable) :
    (∀ c ∈ ep.calls, c.state ≠ CallState.kClosed) ∧
      ∀ x ∈ ep.completed, x.1 ∉ ep.activeInsts := by
  refine ⟨h.reachable_inv.hstate, ?_⟩
  intro x hx hmem
  simp only [Endpoint.activeInsts, List.mem_map] at hmem
  obtain ⟨c, hc, hci⟩ := hmem
  exact h.reachable_inv.hdisj c hc x hx hci

/-- Witness for claim C6 at a concrete reachable endpoint. -/
theorem registry_holds_only_nonterminal_witness :
    (Endpoint.run (Endpoint.init 2 [1]) [Op.invoke 1 7 3 CallType.kUnary]).Reachable ∧
      (∀ c ∈ (Endpoint.run (Endpoint.init 2 [1]) [Op.invoke 1 7 3 CallType.kUnary]).calls,
          c.state ≠ CallState.kClosed) ∧
        ∀ x ∈ (Endpoint.run (Endpoint.init 2 [1]) [Op.invoke 1 7 3 CallType.kUnary]).completed,
          x.1 ∉ (Endpoint.run (Endpoint.init 2 [1]) [Op.invoke 1 7 3 CallType.kUnary]).activeInsts :=
  ⟨⟨2, [1], [Op.invoke 1 7 3 CallType.kUnary], rfl⟩,
    registry_holds_only_nonterminal _ ⟨2, [1], [Op.invoke 1 7 3 CallType.kUnary], rfl⟩⟩

/-- Claim C7: an incoming byte sequence on which packet decoding fails is
discarded silently — the endpoint state (call registry, channel registry, all
bookkeeping) is left unchanged and the processing of any subsequent operations
is unaffected. -/
theorem malformed_packet_discarded_silently (ep : Endpoint) (bytes : List Nat)
    (h : Packet.decode bytes = none) :
    ep.processPacket bytes = ep ∧
      ∀ ops, Endpoint.run (ep.processPacket bytes) ops = Endpoint.run ep ops := by
  have heq : ep.processPacket bytes = ep := by
    simp [Endpoint.processPacket, h]
  exact ⟨heq, fun ops => by rw [heq]⟩

/-- Witness for claim C7 on a concrete malformed byte sequence. -/
theorem malformed_packet_discarded_silently_witness :
    Packet.decode [255] = none ∧
      (Endpoint.init 2 [1]).processPacket [255] = Endpoint.init 2 [1] ∧
        ∀ ops,
          Endpoint.run ((Endpoint.init 2 [1]).processPacket [255]) ops =
            Endpoint.run (Endpoint.init 2 [1]) ops :=
  ⟨by decide, malformed_packet_discarded_silently (Endpoint.init 2 [1]) [255] (by decide)⟩

theorem searchFreeId_succeeds (active : List Nat) :
    ∀ (fuel start : Nat), (∃ k < fuel, (start + k) % kCallIdSpace ∉ active) →
      ∃ cid, searchFreeId active start fuel = some cid := by
  intro fuel
  induction fuel with
  | zero =>
    intro start hex
    obtain ⟨k, hk, _⟩ := hex
    omega
  | succ fuel ih =>
    intro start hex
    by_cases hm : start % kCallIdSpace ∈ active
    · obtain ⟨k, hk, hfree⟩ := hex
      have hk0 : k ≠ 0 := by
        intro e
        subst e
        simp only [Nat.add_zero] at hfree
        exact hfree hm
      obtain ⟨cid, hcid⟩ := ih (start + 1)
        ⟨k - 1, by omega, by
          have harith : start + 1 + (k - 1) = start + k := by omega
          rw [harith]
          exact hfree⟩
      exact ⟨cid, by rw [searchFreeId, if_pos hm]; exact hcid⟩
    · exact ⟨start % kCallIdSpace, by rw [searchFreeId, if_neg hm]⟩

theorem exists_free_candidate (active : List Nat) (start fuel : Nat)
    (hlen : active.length < fuel) (hW : fuel ≤ kCallIdSpace) :
    ∃ k < fuel, (start + k) % kCallIdSpace ∉ active := by
  by_contra hall
  push_neg at hall
  have hinj : Set.InjOn (fun k => (start + k) % kCallIdSpace) ↑(Finset.range fuel) := by
    intro j hj k hk he
    simp only [Finset.coe_range, Set.mem_Iio] at hj hk
    simp only [kCallIdSpace] at he hW
    omega
  have hmaps : ∀ k ∈ Finset.range fuel,
      (start + k) % kCallIdSpace ∈ active.toFinset := by
    intro k hk
    exact List.mem_toFinset.mpr (hall k (Finset.mem_range.mp hk))
  have hcard := Finset.card_le_card_of_injOn _ hmaps hinj
  rw [Finset.card_range] at hcard
  have htf := List.toFinset_card_le active
  omega

theorem Endpoint.invoke_search_some {ep : Endpoint} (hcap : ep.capacity ≤ kCallIdSpace)
    (hlt : ep.calls.length < ep.capacity) :
    ∃ cid, searchFreeId ep.activeIds ep.nextCallId (ep.calls.length + 1) = some cid := by
  apply searchFreeId_succeeds
  apply exists_free_candidate
  · simp only [Endpoint.activeIds, List.length_map]
    exact Nat.lt_succ_self _
  · omega

/-- Claim C4 counterexample: in the endpoint state with registry capacity 0 and
no registered channels, the target channel is not registered, yet `invoke` does
not fail with `ChannelNotFound` — it fails with `ResourceExhausted`, because
the capacity check precedes the channel check (the spec lists the two failures
in that order).  So "fails with ChannelNotFound exactly when the target
channel_id is not registered" is false as stated. -/
theorem invoke_error_claim_counterexample :
    (Endpoint.init 0 []).Reachable ∧
      1 ∉ (Endpoint.init 0 []).channels ∧
      (Endpoint.init 0 []).invoke 1 7 3 CallType.kUnary ≠
        Except.error RpcError.ChannelNotFound ∧
      (Endpoint.init 0 []).invoke 1 7 3 CallType.kUnary =
        Except.error RpcError.ResourceExhausted :=
  ⟨⟨0, [], [], rfl⟩, by decide, by decide, by decide⟩

/-- Claim C4 (amended): provided the registry capacity does not exceed the
32-bit call-id space, `invoke` fails with `ResourceExhausted` exactly when the
registry is at capacity, fails with `ChannelNotFound` exactly when the registry
is not full and the target channel is not registered, and in every failing case
the endpoint — in particular every existing registry entry — is left entirely
unchanged. -/
theorem invoke_error_conditions (ep : Endpoint) (ch s m : Nat) (t : CallType)
    (hcap : ep.capacity ≤ kCallIdSpace) :
    (ep.invoke ch s m t = Except.error RpcError.ResourceExhausted ↔
        ep.capacity ≤ ep.calls.length) ∧
      (ep.invoke ch s m t = Except.error RpcError.ChannelNotFound ↔
        (ep.calls.length < ep.capacity ∧ ch ∉ ep.channels)) ∧
      ∀ e, ep.invoke ch s m t = Except.error e → ep.applyOp (Op.invoke ch s m t) = ep := by
  by_cases h1 : ep.capacity ≤ ep.calls.length
  · have heq : ep.invoke ch s m t = Except.error RpcError.ResourceExhausted := by
      rw [Endpoint.invoke, if_pos h1]
    refine ⟨⟨fun _ => h1, fun _ => heq⟩, ⟨?_, ?_⟩, ?_⟩
    · intro he
      rw [heq] at he
      exact absurd he (by simp)
    · intro hx
      exact absurd h1 (Nat.not_le.mpr hx.1)
    · intro e _
      simp [Endpoint.applyOp, heq]
  · by_cases h2 : ch ∈ ep.channels
    · obtain ⟨cid, hcid⟩ := Endpoint.invoke_search_some hcap (Nat.lt_of_not_le h1)
      have heq : ep.invoke ch s m t =
          Except.ok
            ({ ep.registerNew ⟨ch, s, m, cid⟩ t (some PacketType.kRequest) with
                nextCallId := (cid + 1) % kCallIdSpace }, cid) := by
        rw [Endpoint.invoke, if_neg h1, if_pos h2, hcid]
      refine ⟨⟨?_, fun hfull => absurd hfull h1⟩, ⟨?_, fun hx => absurd h2 hx.2⟩, ?_⟩
      · intro he
        rw [heq] at he
        exact absurd he (by simp)
      · intro he
        rw [heq] at he
        exact absurd he (by simp)
      · intro e he
        rw [heq] at he
        exact absurd he (by simp)
    · have heq : ep.invoke ch s m t = Except.error RpcError.ChannelNotFound := by
        rw [Endpoint.invoke, if_neg h1, if_neg h2]
      refine ⟨⟨?_, fun hfull => absurd hfull h1⟩, ⟨fun _ => ⟨Nat.lt_of_not_le h1, h2⟩,
        fun _ => heq⟩, ?_⟩
      · intro he
        rw [heq] at he
        exact absurd he (by simp)
      · intro e _
        simp [Endpoint.applyOp, heq]

/-- Witness for the amended claim C4 at a concrete endpoint. -/
theorem invoke_error_conditions_witness :
    (Endpoint.init 0 []).capacity ≤ kCallIdSpace ∧
      (((Endpoint.init 0 []).invoke 1 7 3 CallType.kUnary =
            Except.error RpcError.ResourceExhausted ↔
          (Endpoint.init 0 []).capacity ≤ (Endpoint.init 0 []).calls.length) ∧
        (((Endpoint.init 0 []).invoke 1 7 3 CallType.kUnary =
              Except.error RpcError.ChannelNotFound ↔
            ((Endpoint.init 0 []).calls.length < (Endpoint.init 0 []).capacity ∧
              1 ∉ (Endpoint.init 0 []).channels))) ∧
          ∀ e, (Endpoint.init 0 []).invoke 1 7 3 CallType.kUnary = Except.error e →
            (Endpoint.init 0 []).applyOp (Op.invoke 1 7 3 CallType.kUnary) =
              Endpoint.init 0 []) :=
  ⟨by decide, invoke_error_conditions (Endpoint.init 0 []) 1 7 3 CallType.kUnary (by decide)⟩

/-- Claim C5: cancelling an active call deregisters it locally before `cancel`
returns — its key is no longer found in the registry — while the `kCancel`
notification to the peer is merely recorded as sent (no acknowledgement is
awaited), and any later-arriving response packet carrying that key is silently
dropped, leaving the endpoint unchanged. -/
theorem cancel_local_immediate (ep : Endpoint) (k : CallKey) (c : Call)
    (hc : ep.findCall k = some c) :
    (ep.cancel k).findCall k = none ∧
      (c.instId, PacketType.kCancel) ∈ (ep.cancel k).sends ∧
      ∀ bytes p, Packet.decode bytes = some p → p.type = PacketType.kResponse →
        p.key = k → (ep.cancel k).processPacket bytes = ep.cancel k := by
  have hcalls : (ep.cancel k).calls = ep.calls.filter fun c' => decide (c'.key ≠ k) := by
    simp [Endpoint.cancel, Endpoint.closeWith, hc]
  have hnone : (ep.cancel k).findCall k = none := by
    rw [Endpoint.findCall, hcalls, List.find?_eq_none]
    intro a ha
    simpa using (mem_filterKey.mp ha).2
  refine ⟨hnone, ?_, ?_⟩
  · simp [Endpoint.cancel, Endpoint.closeWith, hc]
  · intro bytes p hdec htype hkey
    simp only [Endpoint.processPacket, hdec, htype, Endpoint.handleResponse, hkey, hnone]

/-- Witness for claim C5 at a concrete reachable endpoint with an active
call. -/
theorem cancel_local_immediate_witness :
    (Endpoint.run (Endpoint.init 2 [1]) [Op.invoke 1 7 3 CallType.kUnary]).findCall
        ⟨1, 7, 3, 0⟩ = some ⟨⟨1, 7, 3, 0⟩, CallType.kUnary, 0, CallState.kActive⟩ ∧
      (((Endpoint.run (Endpoint.init 2 [1]) [Op.invoke 1 7 3 CallType.kUnary]).cancel
            ⟨1, 7, 3, 0⟩).findCall ⟨1, 7, 3, 0⟩ = none ∧
        (0, PacketType.kCancel) ∈
          ((Endpoint.run (Endpoint.init 2 [1]) [Op.invoke 1 7 3 CallType.kUnary]).cancel
              ⟨1, 7, 3, 0⟩).sends ∧
        ∀ bytes p, Packet.decode bytes = some p → p.type = PacketType.kResponse →
          p.key = ⟨1, 7, 3, 0⟩ →
            ((Endpoint.run (Endpoint.init 2 [1]) [Op.invoke 1 7 3 CallType.kUnary]).cancel
                  ⟨1, 7, 3, 0⟩).processPacket bytes =
              (Endpoint.run (Endpoint.init 2 [1]) [Op.invoke 1 7 3 CallType.kUnary]).cancel
                ⟨1, 7, 3, 0⟩) :=
  ⟨by decide,
    cancel_local_immediate (Endpoint.run (Endpoint.init 2 [1]) [Op.invoke 1 7 3 CallType.kUnary])
      ⟨1, 7, 3, 0⟩ ⟨⟨1, 7, 3, 0⟩, CallType.kUnary, 0, CallState.kActive⟩ (by decide)⟩

/-- A retired call instance: one that is strictly below the generation counter
and no longer registered.  The next lemmas show no operation resurrects such
an instance or emits a packet on its behalf. -/
def Endpoint.Retired (ep : Endpoint) (i : Nat) : Prop :=
  i < ep.nextInst ∧ i ∉ ep.activeInsts

theorem Endpoint.Retired.closeWith_retired {ep : Endpoint} {i : Nat} (h : ep.Retired i) (k : CallKey)
    (o : Outcome) (send : Option PacketType) :
    (ep.closeWith k o send).Retired i ∧
      ∀ e ∈ (ep.closeWith k o send).sends, e ∈ ep.sends ∨ e.1 ≠ i := by
  obtain ⟨hlt, hact⟩ := h
  cases hf : ep.findCall k with
  | none =>
    simp only [Endpoint.closeWith, hf]
    exact ⟨⟨hlt, hact⟩, fun e he => Or.inl he⟩
  | some c =>
    have hmemact : c.instId ∈ ep.activeInsts := by
      simp only [Endpoint.activeInsts, List.mem_map]
      exact ⟨c, Endpoint.findCall_mem hf, rfl⟩
    have hsub : i ∉ (ep.closeWith k o send).activeInsts := by
      intro hmem
      apply hact
      simp only [Endpoint.closeWith, hf, Endpoint.activeInsts, List.mem_map] at hmem
      obtain ⟨a, ha, hai⟩ := hmem
      simp only [Endpoint.activeInsts, List.mem_map]
      exact ⟨a, (mem_filterKey.mp ha).1, hai⟩
    have hnext : (ep.closeWith k o send).nextInst = ep.nextInst := by
      simp only [Endpoint.closeWith, hf]
    refine ⟨⟨by rw [hnext]; exact hlt, hsub⟩, ?_⟩
    intro e he
    cases send with
    | none =>
      simp only [Endpoint.closeWith, hf] at he
      exact Or.inl he
    | some t =>
      simp only [Endpoint.closeWith, hf] at he
      rcases List.mem_cons.mp he with he | he
      · subst he
        refine Or.inr ?_
        intro he1
        exact hact (he1 ▸ hmemact)
      · exact Or.inl he

theorem Endpoint.Retired.registerNew_retired {ep : Endpoint} {i : Nat} (h : ep.Retired i) (k : CallKey)
    (t : CallType) (send : Option PacketType) :
    (ep.registerNew k t send).Retired i ∧
      ∀ e ∈ (ep.registerNew k t send).sends, e ∈ ep.sends ∨ e.1 ≠ i := by
  obtain ⟨hlt, hact⟩ := h
  refine ⟨⟨Nat.lt_trans hlt (Nat.lt_succ_self _), ?_⟩, ?_⟩
  · intro hmem
    simp only [Endpoint.registerNew, Endpoint.activeInsts, List.map_cons, List.mem_cons] at hmem
    rcases hmem with he | hmem
    · exact Nat.lt_irrefl _ (he ▸ hlt)
    · exact hact (by simpa [Endpoint.activeInsts] using hmem)
  · intro e he
    cases send with
    | none =>
      simp only [Endpoint.registerNew] at he
      exact Or.inl he
    | some pt =>
      simp only [Endpoint.registerNew] at he
      rcases List.mem_cons.mp he with he | he
      · subst he
        exact Or.inr fun he1 => Nat.lt_irrefl _ (he1 ▸ hlt)
      · exact Or.inl he

theorem Endpoint.Retired.applyOp_retired {ep : Endpoint} {i : Nat} (h : ep.Retired i) (op : Op) :
    (ep.applyOp op).Retired i ∧ ∀ e ∈ (ep.applyOp op).sends, e ∈ ep.sends ∨ e.1 ≠ i := by
  cases op with
  | invoke ch s m t =>
    simp only [Endpoint.applyOp]
    cases hres : ep.invoke ch s m t with
    | error e => exact ⟨h, fun e he => Or.inl he⟩
    | ok r =>
      obtain ⟨ep', cid⟩ := r
      obtain ⟨_, _, _, hep'⟩ := Endpoint.invoke_ok hres
      show ep'.Retired i ∧ ∀ e ∈ ep'.sends, e ∈ ep.sends ∨ e.1 ≠ i
      rw [hep']
      exact h.registerNew_retired _ t (some PacketType.kRequest)
  | incoming bytes =>
    simp only [Endpoint.applyOp]
    cases hd : Packet.decode bytes with
    | none =>
      simp only [Endpoint.processPacket, hd]
      exact ⟨h, fun e he => Or.inl he⟩
    | some p =>
      simp only [Endpoint.processPacket, hd]
      cases p.type
      · -- kRequest
        cases hf : ep.findCall p.key with
        | some c =>
          simp only [Endpoint.handleRequest, hf]
          obtain ⟨hc', hs'⟩ := h.closeWith_retired p.key Outcome.cancelled none
          by_cases hc2 :
              (ep.closeWith p.key Outcome.cancelled none).capacity ≤
                (ep.closeWith p.key Outcome.cancelled none).calls.length
          · rw [if_pos hc2]
            exact ⟨hc', hs'⟩
          · rw [if_neg hc2]
            obtain ⟨hc'', hs''⟩ := hc'.registerNew_retired p.key CallType.kUnary none
            refine ⟨hc'', ?_⟩
            intro e he
            rcases hs'' e he with he' | hne
            · exact hs' e he'
            · exact Or.inr hne
        | none =>
          simp only [Endpoint.handleRequest, hf]
          by_cases hc2 : ep.capacity ≤ ep.calls.length
          · rw [if_pos hc2]
            exact ⟨h, fun e he => Or.inl he⟩
          · rw [if_neg hc2]
            exact h.registerNew_retired p.key CallType.kUnary none
      · -- kResponse
        cases hf : ep.findCall p.key with
        | none =>
          simp only [Endpoint.handleResponse, hf]
          exact ⟨h, fun e he => Or.inl he⟩
        | some c =>
          simp only [Endpoint.handleResponse, hf]
          cases c.call_type
          · exact h.closeWith_retired _ _ _
          · exact h.closeWith_retired _ _ _
          · exact ⟨h, fun e he => Or.inl he⟩
          · exact ⟨h, fun e he => Or.inl he⟩
      · exact ⟨h, fun e he => Or.inl he⟩
      · exact ⟨h, fun e he => Or.inl he⟩
      · exact h.closeWith_retired _ _ _
      · exact h.closeWith_retired _ _ _
      · -- kServerStreamEnd
        cases hf : ep.findCall p.key with
        | none =>
          simp only [Endpoint.handleServerStreamEnd, hf]
          exact ⟨h, fun e he => Or.inl he⟩
        | some c =>
          simp only [Endpoint.handleServerStreamEnd, hf]
          cases c.call_type
          · exact ⟨h, fun e he => Or.inl he⟩
          · exact ⟨h, fun e he => Or.inl he⟩
          · exact h.closeWith_retired _ _ _
          · exact h.closeWith_retired _ _ _
      · exact h.closeWith_retired _ _ _
  | cancel k =>
    simp only [Endpoint.applyOp, Endpoint.cancel]
    exact h.closeWith_retired _ _ _
  | respond k st =>
    simp only [Endpoint.applyOp, Endpoint.respond]
    exact h.closeWith_retired _ _ _
  | streamFragment k =>
    simp only [Endpoint.applyOp]
    cases hf : ep.findCall k with
    | none =>
      simp only [Endpoint.sendStreamFragment, hf]
      exact ⟨h, fun e he => Or.inl he⟩
    | some c =>
      simp only [Endpoint.sendStreamFragment, hf]
      obtain ⟨hlt, hact⟩ := h
      refine ⟨⟨hlt, hact⟩, ?_⟩
      intro e he
      rcases List.mem_cons.mp he with he | he
      · subst he
        refine Or.inr ?_
        intro he1
        apply hact
        rw [← he1]
        simp only [Endpoint.activeInsts, List.mem_map]
        exact ⟨c, Endpoint.findCall_mem hf, rfl⟩
      · exact Or.inl he
  | finishStream k =>
    simp only [Endpoint.applyOp]
    cases hf : ep.findCall k with
    | none =>
      simp only [Endpoint.finishClientStream, hf]
      exact ⟨h, fun e he => Or.inl he⟩
    | some c =>
      simp only [Endpoint.finishClientStream, hf]
      obtain ⟨hlt, hact⟩ := h
      have hinsts : ∀ c' : Call,
          ((if c'.key = k then { c' with state := CallState.kAwaitingCompletion } else c') :
              Call).instId = c'.instId := by
        intro c'
        by_cases hk : c'.key = k <;> simp [hk]
      refine ⟨⟨hlt, ?_⟩, ?_⟩
      · intro hmem
        apply hact
        simp only [Endpoint.activeInsts, List.map_map] at hmem
        have hcongr :
            (Call.instId ∘ fun c' : Call =>
                if c'.key = k then { c' with state := CallState.kAwaitingCompletion } else c')
              = Call.instId := by
          funext c'
          exact hinsts c'
        rw [hcongr] at hmem
        exact hmem
      · intro e he
        rcases List.mem_cons.mp he with he | he
        · subst he
          refine Or.inr ?_
          intro he1
          apply hact
          rw [← he1]
          simp only [Endpoint.activeInsts, List.mem_map]
          exact ⟨c, Endpoint.findCall_mem hf, rfl⟩
        · exact Or.inl he
  | teardown =>
    simp only [Endpoint.applyOp, Endpoint.teardown]
    obtain ⟨hlt, _⟩ := h
    exact ⟨⟨hlt, by simp [Endpoint.activeInsts]⟩, fun e he => Or.inl he⟩

theorem Endpoint.Retired.run_retired {i : Nat} :
    ∀ (ops : List Op) (ep : Endpoint), ep.Retired i →
      (Endpoint.run ep ops).Retired i ∧
        ∀ e ∈ (Endpoint.run ep ops).sends, e ∈ ep.sends ∨ e.1 ≠ i := by
  intro ops
  induction ops with
  | nil =>
    intro ep h
    exact ⟨h, fun e he => Or.inl he⟩
  | cons op ops ih =>
    intro ep h
    obtain ⟨h', hs'⟩ := h.applyOp_retired op
    obtain ⟨h'', hs''⟩ := ih (ep.applyOp op) h'
    refine ⟨h'', ?_⟩
    intro e he
    rcases hs'' e he with he' | hne
    · exact hs' e he'
    · exact Or.inr hne

/-- Claim C3: when an endpoint receives a `kRequest` whose key already belongs
to an active call, the prior call is abnormally closed with `Cancelled` and a
fresh call for that key becomes active in the same atomic step; from that point
on, the prior call object is never registered again and no packet is ever
emitted on its behalf, so its client never receives a further fragment of
it. -/
theorem duplicate_request_preempts_prior_call (ep : Endpoint) (bytes : List Nat) (p : Packet)
    (old : Call) (hreach : ep.Reachable) (hdec : Packet.decode bytes = some p)
    (htype : p.type = PacketType.kRequest) (hold : ep.findCall p.key = some old) :
    ((old.instId, Outcome.cancelled) ∈ (ep.processPacket bytes).completed) ∧
      (∃ newc ∈ (ep.processPacket bytes).calls,
        newc.key = p.key ∧ newc.state = CallState.kActive ∧ newc.instId ≠ old.instId) ∧
      ∀ ops, old.instId ∉ (Endpoint.run (ep.processPacket bytes) ops).activeInsts ∧
        ∀ e ∈ (Endpoint.run (ep.processPacket bytes) ops).sends,
          e ∈ ep.sends ∨ e.1 ≠ old.instId := by
  have hinv := hreach.reachable_inv
  have holdm : old ∈ ep.calls := Endpoint.findCall_mem hold
  have holdk : old.key = p.key := Endpoint.findCall_key hold
  have hlenlt : (ep.closeWith p.key Outcome.cancelled none).calls.length < ep.calls.length := by
    simp only [Endpoint.closeWith, hold]
    refine List.length_filter_lt_length_iff_exists.mpr ⟨old, holdm, ?_⟩
    simp [holdk]
  have hcapeq : (ep.closeWith p.key Outcome.cancelled none).capacity = ep.capacity := by
    simp only [Endpoint.closeWith, hold]
  have hnotfull :
      ¬ (ep.closeWith p.key Outcome.cancelled none).capacity ≤
          (ep.closeWith p.key Outcome.cancelled none).calls.length := by
    rw [hcapeq]
    exact Nat.not_le.mpr (lt_of_lt_of_le hlenlt hinv.hlen)
  have hpp : ep.processPacket bytes =
      (ep.closeWith p.key Outcome.cancelled none).registerNew p.key CallType.kUnary none := by
    simp only [Endpoint.processPacket, hdec, htype, Endpoint.handleRequest, hold, if_neg hnotfull]
  have hcompleted : (ep.processPacket bytes).completed =
      (old.instId, Outcome.cancelled) :: ep.completed := by
    rw [hpp]
    simp only [Endpoint.registerNew, Endpoint.closeWith, hold]
  have hsends : (ep.processPacket bytes).sends = ep.sends := by
    rw [hpp]
    simp only [Endpoint.registerNew, Endpoint.closeWith, hold]
  have hcalls : (ep.processPacket bytes).calls =
      (⟨p.key, CallType.kUnary, ep.nextInst, CallState.kActive⟩ : Call) ::
        (ep.calls.filter fun c' => decide (c'.key ≠ p.key)) := by
    rw [hpp]
    simp only [Endpoint.registerNew, Endpoint.closeWith, hold]
  have hnext : (ep.processPacket bytes).nextInst = ep.nextInst + 1 := by
    rw [hpp]
    simp only [Endpoint.registerNew, Endpoint.closeWith, hold]
  have holdlt : old.instId < ep.nextInst := hinv.hinstA old holdm
  have hret : (ep.processPacket bytes).Retired old.instId := by
    refine ⟨by rw [hnext]; omega, ?_⟩
    intro hmem
    simp only [Endpoint.activeInsts, hcalls, List.map_cons, List.mem_cons, List.mem_map] at hmem
    rcases hmem with he | ⟨a, ha, hai⟩
    · omega
    · obtain ⟨ham, hak⟩ := mem_filterKey.mp ha
      have hane : a ≠ old := fun e => hak (e ▸ holdk)
      exact instId_ne_of_mem_of_ne hinv.hinsts ham holdm hane hai
  refine ⟨?_, ?_, ?_⟩
  · rw [hcompleted]
    exact List.mem_cons_self _ _
  · refine ⟨⟨p.key, CallType.kUnary, ep.nextInst, CallState.kActive⟩, ?_, rfl, rfl, ?_⟩
    · rw [hcalls]
      exact List.mem_cons_self _ _
    · exact fun e => Nat.lt_irrefl _ (e ▸ holdlt)
  · intro ops
    obtain ⟨⟨_, hnot⟩, hs⟩ := Endpoint.Retired.run_retired ops (ep.processPacket bytes) hret
    refine ⟨hnot, ?_⟩
    intro e he
    rcases hs e he with he' | hne
    · rw [hsends] at he'
      exact Or.inl he'
    · exact Or.inr hne

/-- Witness for claim C3: a concrete endpoint where a second `kRequest` with
the key of an already-active call arrives. -/
theorem duplicate_request_preempts_prior_call_witness :
    (Endpoint.run (Endpoint.init 2 [1])
        [Op.incoming (Packet.encode (Packet.mk .kRequest 1 1 1 5 [] 0))]).Reachable ∧
      Packet.decode (Packet.encode (Packet.mk .kRequest 1 1 1 5 [] 0)) =
        some (Packet.mk .kRequest 1 1 1 5 [] 0) ∧
      (Packet.mk .kRequest 1 1 1 5 [] 0).type = PacketType.kRequest ∧
      (Endpoint.run (Endpoint.init 2 [1])
          [Op.incoming (Packet.encode (Packet.mk .kRequest 1 1 1 5 [] 0))]).findCall
          (Packet.mk .kRequest 1 1 1 5 [] 0).key =
        some ⟨⟨1, 1, 1, 5⟩, CallType.kUnary, 0, CallState.kActive⟩ ∧
      (((⟨⟨1, 1, 1, 5⟩, CallType.kUnary, 0, CallState.kActive⟩ : Call).instId,
            Outcome.cancelled) ∈
          ((Endpoint.run (Endpoint.init 2 [1])
              [Op.incoming (Packet.encode (Packet.mk .kRequest 1 1 1 5 [] 0))]).processPacket
            (Packet.encode (Packet.mk .kRequest 1 1 1 5 [] 0))).completed ∧
        (∃ newc ∈
            ((Endpoint.run (Endpoint.init 2 [1])
                [Op.incoming (Packet.encode (Packet.mk .kRequest 1 1 1 5 [] 0))]).processPacket
              (Packet.encode (Packet.mk .kRequest 1 1 1 5 [] 0))).calls,
          newc.key = (Packet.mk .kRequest 1 1 1 5 [] 0).key ∧
            newc.state = CallState.kActive ∧
            newc.instId ≠
              (⟨⟨1, 1, 1, 5⟩, CallType.kUnary, 0, CallState.kActive⟩ : Call).instId) ∧
        ∀ ops,
          (⟨⟨1, 1, 1, 5⟩, CallType.kUnary, 0, CallState.kActive⟩ : Call).instId ∉
              (Endpoint.run
                ((Endpoint.run (Endpoint.init 2 [1])
                    [Op.incoming (Packet.encode (Packet.mk .kRequest 1 1 1 5 [] 0))]).processPacket
                  (Packet.encode (Packet.mk .kRequest 1 1 1 5 [] 0))) ops).activeInsts ∧
            ∀ e ∈
              (Endpoint.run
                ((Endpoint.run (Endpoint.init 2 [1])
                    [Op.incoming (Packet.encode (Packet.mk .kRequest 1 1 1 5 [] 0))]).processPacket
                  (Packet.encode (Packet.mk .kRequest 1 1 1 5 [] 0))) ops).sends,
              e ∈
                  (Endpoint.run (Endpoint.init 2 [1])
                    [Op.incoming (Packet.encode (Packet.mk .kRequest 1 1 1 5 [] 0))]).sends ∨
                e.1 ≠ (⟨⟨1, 1, 1, 5⟩, CallType.kUnary, 0, CallState.kActive⟩ : Call).instId) :=
  ⟨⟨2, [1], [Op.incoming (Packet.encode (Packet.mk .kRequest 1 1 1 5 [] 0))], rfl⟩, by decide,
    rfl, by decide,
    duplicate_request_preempts_prior_call
      (Endpoint.run (Endpoint.init 2 [1])
        [Op.incoming (Packet.encode (Packet.mk .kRequest 1 1 1 5 [] 0))])
      (Packet.encode (Packet.mk .kRequest 1 1 1 5 [] 0)) (Packet.mk .kRequest 1 1 1 5 [] 0)
      ⟨⟨1, 1, 1, 5⟩, CallType.kUnary, 0, CallState.kActive⟩
      ⟨2, [1], [Op.incoming (Packet.encode (Packet.mk .kRequest 1 1 1 5 [] 0))], rfl⟩
      (by decide) rfl (by decide)⟩

theorem countP_le_one_of_pairwise {α : Type u_1} (f : α → Nat) :
    ∀ l : List α, (l.Pairwise fun a b => f a ≠ f b) → ∀ i : Nat,
      l.countP (fun a => decide (f a = i)) ≤ 1 := by
  intro l
  induction l with
  | nil =>
    intro _ i
    simp
  | cons a l ih =>
    intro hp i
    obtain ⟨ha, hp'⟩ := List.pairwise_cons.mp hp
    rw [List.countP_cons]
    by_cases he : f a = i
    · have hz : l.countP (fun a => decide (f a = i)) = 0 := by
        apply List.countP_eq_zero.mpr
        intro b hb
        simp only [decide_eq_true_eq]
        intro hbi
        exact ha b hb (by rw [he, hbi])
      simp [hz, he]
    · simp only [he, decide_eq_true_eq, if_neg he]
      simpa using ih hp' i

theorem countP_eq_one_of_pairwise_mem {α : Type u_1} (f : α → Nat) :
    ∀ l : List α, (l.Pairwise fun a b => f a ≠ f b) → ∀ i : Nat, i ∈ l.map f →
      l.countP (fun a => decide (f a = i)) = 1 := by
  intro l
  induction l with
  | nil =>
    intro _ i hi
    simp at hi
  | cons a l ih =>
    intro hp i hi
    obtain ⟨ha, hp'⟩ := List.pairwise_cons.mp hp
    rw [List.countP_cons]
    by_cases he : f a = i
    · have hz : l.countP (fun a => decide (f a = i)) = 0 := by
        apply List.countP_eq_zero.mpr
        intro b hb
        simp only [decide_eq_true_eq]
        intro hbi
        exact ha b hb (by rw [he, hbi])
      simp [hz, he]
    · have hi' : i ∈ l.map f := by
        rcases List.mem_cons.mp hi with hia | hi'
        · exact absurd hia.symm he
        · exact hi'
      simp only [decide_eq_true_eq, if_neg he]
      simpa using ih hp' i hi'

/-- Claim C8: in every reachable endpoint state, no call object has ever been
given more than one terminal outcome, a still-registered call has been given
none, and once the endpoint retires its calls (teardown forces the
abnormal-completion path of every active call) every call object ever created
has been given exactly one terminal outcome — never silence, never a
duplicate. -/
theorem client_observes_exactly_one_outcome (ep : Endpoint) (h : ep.Reachable) :
    (∀ i, ep.completed.countP (fun x => decide (x.1 = i)) ≤ 1) ∧
      (∀ c ∈ ep.calls, ep.completed.countP (fun x => decide (x.1 = c.instId)) = 0) ∧
      ∀ i, i < ep.nextInst →
        ep.teardown.completed.countP (fun x => decide (x.1 = i)) = 1 := by
  have hinv := h.reachable_inv
  refine ⟨?_, ?_, ?_⟩
  · intro i
    exact countP_le_one_of_pairwise Prod.fst ep.completed hinv.hcomp i
  · intro c hc
    apply List.countP_eq_zero.mpr
    intro x hx
    simp only [decide_eq_true_eq]
    exact fun he => hinv.hdisj c hc x hx he.symm
  · intro i hi
    have hteq : ep.teardown.completed =
        (ep.calls.map fun c => (c.instId, Outcome.aborted)) ++ ep.completed := rfl
    rw [hteq, List.countP_append, List.countP_map]
    have hcomp_fun :
        ((fun x : Nat × Outcome => decide (x.1 = i)) ∘ fun c : Call =>
            (c.instId, Outcome.aborted)) = fun c : Call => decide (c.instId = i) := rfl
    rw [hcomp_fun]
    rcases hinv.htotal i hi with hact | hdone
    · have h1 : ep.calls.countP (fun c => decide (c.instId = i)) = 1 :=
        countP_eq_one_of_pairwise_mem Call.instId ep.calls hinv.hinsts i
          (by simpa [Endpoint.activeInsts] using hact)
      have h2 : ep.completed.countP (fun x => decide (x.1 = i)) = 0 := by
        apply List.countP_eq_zero.mpr
        intro x hx
        simp only [decide_eq_true_eq]
        intro he
        simp only [Endpoint.activeInsts, List.mem_map] at hact
        obtain ⟨c, hc, hci⟩ := hact
        exact hinv.hdisj c hc x hx (by rw [hci, he])
      omega
    · have h1 : ep.calls.countP (fun c => decide (c.instId = i)) = 0 := by
        apply List.countP_eq_zero.mpr
        intro c hc
        simp only [decide_eq_true_eq]
        intro he
        simp only [List.mem_map] at hdone
        obtain ⟨x, hx, hxi⟩ := hdone
        exact hinv.hdisj c hc x hx (by rw [he, hxi])
      have h2 : ep.completed.countP (fun x => decide (x.1 = i)) = 1 :=
        countP_eq_one_of_pairwise_mem Prod.fst ep.completed hinv.hcomp i hdone
      omega

/-- Witness for claim C8 at a concrete reachable endpoint. -/
theorem client_observes_exactly_one_outcome_witness :
    (Endpoint.run (Endpoint.init 2 [1]) [Op.invoke 1 7 3 CallType.kUnary]).Reachable ∧
      ((∀ i,
          (Endpoint.run (Endpoint.init 2 [1])
              [Op.invoke 1 7 3 CallType.kUnary]).completed.countP
            (fun x => decide (x.1 = i)) ≤ 1) ∧
        (∀ c ∈ (Endpoint.run (Endpoint.init 2 [1]) [Op.invoke 1 7 3 CallType.kUnary]).calls,
          (Endpoint.run (Endpoint.init 2 [1])
              [Op.invoke 1 7 3 CallType.kUnary]).completed.countP
            (fun x => decide (x.1 = c.instId)) = 0) ∧
        ∀ i,
          i < (Endpoint.run (Endpoint.init 2 [1]) [Op.invoke 1 7 3 CallType.kUnary]).nextInst →
            (Endpoint.run (Endpoint.init 2 [1])
                [Op.invoke 1 7 3 CallType.kUnary]).teardown.completed.countP
              (fun x => decide (x.1 = i)) = 1) :=
  ⟨⟨2, [1], [Op.invoke 1 7 3 CallType.kUnary], rfl⟩,
    client_observes_exactly_one_outcome _ ⟨2, [1], [Op.invoke 1 7 3 CallType.kUnary], rfl⟩⟩

end PwRpc

namespace PwContainers

theorem mem_le_sum {l : List Nat} {n : Nat} (h : n ∈ l) : n ≤ l.sum := by
  induction l with
  | nil => simp at h
  | cons a l ih =>
    rw [List.sum_cons]
    rcases List.mem_cons.mp h with h | h
    · subst h
      exact Nat.le_add_right _ _
    · exact le_trans (ih h) (Nat.le_add_left _ _)

theorem sum_map_le_countP {α : Type u_1} (g : α → Nat) (p : α → Bool) :
    ∀ l : List α, (∀ a ∈ l, g a ≤ if p a = true then 1 else 0) →
      (l.map g).sum ≤ l.countP p := by
  intro l
  induction l with
  | nil =>
    intro _
    simp
  | cons a l ih =>
    intro hb
    rw [List.map_cons, List.sum_cons, List.countP_cons]
    have h1 := hb a (List.mem_cons_self a l)
    have h2 := ih fun b hbm => hb b (List.mem_cons_of_mem a hbm)
    by_cases hp : p a = true
    · rw [if_pos hp] at h1
      rw [if_pos hp]
      omega
    · rw [if_neg hp] at h1
      rw [if_neg hp]
      omega

theorem count_sum_unique {x : Nat} :
    ∀ ls : List (Nat × List Nat), ((ls.map fun l => l.2.count x).sum ≤ 1) →
      ∀ l1 ∈ ls, ∀ l2 ∈ ls, x ∈ l1.2 → x ∈ l2.2 → l1 = l2 := by
  intro ls
  induction ls with
  | nil =>
    intro _ l1 h1
    simp at h1
  | cons a ls ih =>
    intro hsum l1 h1 l2 h2 hx1 hx2
    rw [List.map_cons, List.sum_cons] at hsum
    rcases List.mem_cons.mp h1 with h1 | h1 <;> rcases List.mem_cons.mp h2 with h2 | h2
    · rw [h1, h2]
    · exfalso
      have hc1 : 1 ≤ a.2.count x := List.one_le_count_iff.mpr (h1 ▸ hx1)
      have hc2 : 1 ≤ l2.2.count x := List.one_le_count_iff.mpr hx2
      have hle : l2.2.count x ≤ (ls.map fun l => l.2.count x).sum :=
        mem_le_sum (List.mem_map.mpr ⟨l2, h2, rfl⟩)
      omega
    · exfalso
      have hc1 : 1 ≤ a.2.count x := List.one_le_count_iff.mpr (h2 ▸ hx2)
      have hc2 : 1 ≤ l1.2.count x := List.one_le_count_iff.mpr hx1
      have hle : l1.2.count x ≤ (ls.map fun l => l.2.count x).sum :=
        mem_le_sum (List.mem_map.mpr ⟨l1, h1, rfl⟩)
      omega
    · exact ih (by omega) l1 h1 l2 h2 hx1 hx2

theorem count_erase_le (y x : Nat) (l : List Nat) : (l.erase x).count y ≤ l.count y := by
  rw [List.count_erase]
  split <;> omega

theorem IntrusiveState.Inv.newList {s : IntrusiveState} (h : s.Inv) (lid : Nat) :
    (s.newList lid).Inv := by
  unfold IntrusiveState.newList
  by_cases hc : lid ∈ s.lists.map Prod.fst
  · rw [if_pos hc]
    exact h
  · rw [if_neg hc]
    constructor
    · refine List.pairwise_cons.mpr ⟨?_, h.hids⟩
      intro l hl he
      exact hc (List.mem_map.mpr ⟨l, hl, he.symm⟩)
    · intro y
      have heq : (IntrusiveState.mk ((lid, []) :: s.lists)).occurrences y = s.occurrences y := by
        simp [IntrusiveState.occurrences]
      rw [heq]
      exact h.honce y

theorem IntrusiveState.Inv.applyPush {s : IntrusiveState} (h : s.Inv) (lid x : Nat)
    (hfree : ¬ s.itemInAnyList x) :
    (IntrusiveState.mk (s.lists.map fun l => if l.1 = lid then (l.1, l.2 ++ [x]) else l)).Inv := by
  have hfst : ∀ l : Nat × List Nat,
      ((if l.1 = lid then (l.1, l.2 ++ [x]) else l) : Nat × List Nat).1 = l.1 := by
    intro l
    by_cases hk : l.1 = lid <;> simp [hk]
  constructor
  · refine List.pairwise_map.mpr (h.hids.imp ?_)
    intro a b hab
    rw [hfst a, hfst b]
    exact hab
  · intro y
    by_cases hyx : y = x
    · have hz : ∀ l ∈ s.lists, l.2.count y = 0 := by
        intro l hl
        refine List.count_eq_zero.mpr ?_
        intro hmem
        exact hfree ⟨l, hl, hyx ▸ hmem⟩
      have hb : ∀ l ∈ s.lists,
          ((if l.1 = lid then (l.1, l.2 ++ [x]) else l) : Nat × List Nat).2.count y ≤
            if (fun l : Nat × List Nat => decide (l.1 = lid)) l = true then 1 else 0 := by
        intro l hl
        by_cases hk : l.1 = lid
        · simp only [decide_eq_true_eq, if_pos hk]
          rw [List.count_append, hz l hl, List.count_singleton']
          split <;> omega
        · simp only [decide_eq_true_eq, if_neg hk]
          rw [hz l hl]
      simp only [IntrusiveState.occurrences, List.map_map]
      exact le_trans (sum_map_le_countP _ _ s.lists hb)
        (PwRpc.countP_le_one_of_pairwise Prod.fst s.lists h.hids lid)
    · have hcongr : ∀ l ∈ s.lists,
          ((if l.1 = lid then (l.1, l.2 ++ [x]) else l) : Nat × List Nat).2.count y =
            l.2.count y := by
        intro l hl
        by_cases hk : l.1 = lid
        · simp only [if_pos hk]
          rw [List.count_append]
          have hxy : ¬x = y := fun e => hyx e.symm
          have hone : List.count y [x] = 0 := by
            rw [List.count_singleton']
            exact if_neg hxy
          omega
        · simp [hk]
      have heq :
          (IntrusiveState.mk
              (s.lists.map fun l => if l.1 = lid then (l.1, l.2 ++ [x]) else l)).occurrences y =
            s.occurrences y := by
        simp only [IntrusiveState.occurrences, List.map_map]
        exact congrArg List.sum (List.map_congr_left fun l hl => hcongr l hl)
      rw [heq]
      exact h.honce y

theorem IntrusiveState.Inv.remove {s : IntrusiveState} (h : s.Inv) (lid x : Nat) :
    (s.remove lid x).Inv := by
  have hfst : ∀ l : Nat × List Nat,
      ((if l.1 = lid then (l.1, l.2.erase x) else l) : Nat × List Nat).1 = l.1 := by
    intro l
    by_cases hk : l.1 = lid <;> simp [hk]
  constructor
  · refine List.pairwise_map.mpr (h.hids.imp ?_)
    intro a b hab
    rw [hfst a, hfst b]
    exact hab
  · intro y
    have hb : ∀ l ∈ s.lists,
        ((if l.1 = lid then (l.1, l.2.erase x) else l) : Nat × List Nat).2.count y ≤
          l.2.count y := by
      intro l _
      by_cases hk : l.1 = lid
      · simp only [if_pos hk]
        exact count_erase_le y x l.2
      · simp [hk]
    have hle : (s.remove lid x).occurrences y ≤ s.occurrences y := by
      simp only [IntrusiveState.remove, IntrusiveState.occurrences, List.map_map]
      exact List.sum_le_sum hb
    exact le_trans hle (h.honce y)

theorem IntrusiveState.Inv.destroyItem {s : IntrusiveState} (h : s.Inv) (x : Nat) :
    (s.destroyItem x).Inv := by
  constructor
  · refine List.pairwise_map.mpr (h.hids.imp ?_)
    intro a b hab
    exact hab
  · intro y
    have hb : ∀ l ∈ s.lists,
        ((l.1, l.2.erase x) : Nat × List Nat).2.count y ≤ l.2.count y := by
      intro l _
      exact count_erase_le y x l.2
    have hle : (s.destroyItem x).occurrences y ≤ s.occurrences y := by
      simp only [IntrusiveState.destroyItem, IntrusiveState.occurrences, List.map_map]
      exact List.sum_le_sum hb
    exact le_trans hle (h.honce y)

theorem IntrusiveState.Inv.applyOp_list_preserved {s : IntrusiveState} (h : s.Inv) (op : ListOp) :
    (s.applyOp op).Inv := by
  cases op with
  | newList lid => exact h.newList lid
  | pushBack lid x =>
    simp only [IntrusiveState.applyOp, IntrusiveState.push_back]
    by_cases hin : s.itemInAnyList x
    · rw [if_pos hin]
      exact h
    · rw [if_neg hin]
      exact h.applyPush lid x hin
  | remove lid x => exact h.remove lid x
  | destroyItem x => exact h.destroyItem x

theorem IntrusiveState.Inv.run_list_preserved {s : IntrusiveState} (h : s.Inv) (ops : List ListOp) :
    (IntrusiveState.run s ops).Inv := by
  induction ops generalizing s with
  | nil => exact h
  | cons op ops ih => exact ih (h.applyOp_list_preserved op)

theorem IntrusiveState.empty_inv : (IntrusiveState.mk []).Inv := by
  constructor
  · simp
  · intro x
    simp [IntrusiveState.occurrences]

theorem IntrusiveState.Reachable.reachable_list_inv {s : IntrusiveState} (h : s.Reachable) : s.Inv := by
  obtain ⟨ops, rfl⟩ := h
  exact IntrusiveState.empty_inv.run_list_preserved ops

/-- Claim C9: in every reachable state an intrusive-list item belongs to at
most one list (no item is an element of two distinct lists), and attempting to
add an item that is already in a list — the same or a different one — fails the
assertion instead of splicing the item into two lists. -/
theorem intrusive_item_at_most_one_list (s : IntrusiveState) (h : s.Reachable) :
    (∀ x : Nat, ∀ l1 ∈ s.lists, ∀ l2 ∈ s.lists, x ∈ l1.2 → x ∈ l2.2 → l1 = l2) ∧
      ∀ lid x, s.itemInAnyList x → s.push_back lid x = none := by
  have hinv := IntrusiveState.Reachable.reachable_list_inv h
  refine ⟨?_, ?_⟩
  · intro x l1 h1 l2 h2 hx1 hx2
    exact count_sum_unique s.lists
      (by simpa [IntrusiveState.occurrences] using hinv.honce x) l1 h1 l2 h2 hx1 hx2
  · intro lid x hin
    simp [IntrusiveState.push_back, hin]

/-- Witness for claim C9 at a concrete reachable state with one item in one
list. -/
theorem intrusive_item_at_most_one_list_witness :
    (IntrusiveState.run ⟨[]⟩ [ListOp.newList 1, ListOp.pushBack 1 5]).Reachable ∧
      ((∀ x : Nat,
          ∀ l1 ∈ (IntrusiveState.run ⟨[]⟩ [ListOp.newList 1, ListOp.pushBack 1 5]).lists,
            ∀ l2 ∈ (IntrusiveState.run ⟨[]⟩ [ListOp.newList 1, ListOp.pushBack 1 5]).lists,
              x ∈ l1.2 → x ∈ l2.2 → l1 = l2) ∧
        ∀ lid x,
          (IntrusiveState.run ⟨[]⟩ [ListOp.newList 1, ListOp.pushBack 1 5]).itemInAnyList x →
            (IntrusiveState.run ⟨[]⟩ [ListOp.newList 1, ListOp.pushBack 1 5]).push_back lid x =
              none) :=
  ⟨⟨[ListOp.newList 1, ListOp.pushBack 1 5], rfl⟩,
    intrusive_item_at_most_one_list _ ⟨[ListOp.newList 1, ListOp.pushBack 1 5], rfl⟩⟩

/-- Claim C10: destroying an item while it is still an element of a list
removes it from that list — after the destructor runs, no list retains an entry
for the destroyed item. -/
theorem destroyed_item_removed_from_list (s : IntrusiveState) (x : Nat) (h : s.Reachable) :
    ∀ l ∈ (s.destroyItem x).lists, x ∉ l.2 := by
  have hinv := IntrusiveState.Reachable.reachable_list_inv h
  intro l hl
  simp only [IntrusiveState.destroyItem, List.mem_map] at hl
  obtain ⟨a, ha, hal⟩ := hl
  subst hal
  intro hmem
  have h1 : 1 ≤ (a.2.erase x).count x := List.one_le_count_iff.mpr hmem
  have h2 : (a.2.erase x).count x = a.2.count x - 1 := List.count_erase_self x a.2
  have h3 : a.2.count x ≤ s.occurrences x := by
    have hmemmap : a.2.count x ∈ s.lists.map fun l => l.2.count x :=
      List.mem_map.mpr ⟨a, ha, rfl⟩
    simpa [IntrusiveState.occurrences] using mem_le_sum hmemmap
  have h4 := hinv.honce x
  omega

/-- Witness for claim C10 at a concrete reachable state with one item in one
list. -/
theorem destroyed_item_removed_from_list_witness :
    (IntrusiveState.run ⟨[]⟩ [ListOp.newList 1, ListOp.pushBack 1 5]).Reachable ∧
      ∀ l ∈ ((IntrusiveState.run ⟨[]⟩ [ListOp.newList 1, ListOp.pushBack 1 5]).destroyItem
          5).lists, 5 ∉ l.2 :=
  ⟨⟨[ListOp.newList 1, ListOp.pushBack 1 5], rfl⟩,
    destroyed_item_removed_from_list _ 5 ⟨[ListOp.newList 1, ListOp.pushBack 1 5], rfl⟩⟩

end PwContainers
